import Mathlib

/-!
Shallow embedding of the ug-scraper core: chord extraction and key detection
(`internal/converter/chords.go`), OnSong conversion
(`internal/converter/onsong.go`), search-result reduction
(`internal/scraper/search_scraper.go`), webhook delivery with retry
(`internal/webhook`), and API-key signing (`internal/scraper`), together with
theorems settling the specification claims.

Go strings are modelled as Lean `String`s (all inputs of interest are ASCII,
so byte indexing and rune indexing coincide); `float64` ratings are modelled
as `Rat`; Go standard-library helpers (`strings.ReplaceAll`, `strings.Fields`,
`strings.TrimSpace`, ...) are modelled by executable Lean functions below.
-/

namespace UGScraper

/-- Whitespace test mirroring Go's `unicode.IsSpace` on the ASCII range
(space, tab, newline, carriage return, vertical tab, form feed). -/
def isSpaceChar (c : Char) : Bool :=
  c = ' ' ∨ c = '\t' ∨ c = '\n' ∨ c = '\r' ∨ c = '\x0b' ∨ c = '\x0c'

/-- ASCII lowering, mirroring Go's `strings.ToLower` on ASCII data. -/
def lowerStr (s : String) : String :=
  ⟨s.data.map Char.toLower⟩

/-- `strings.Contains`: `pat` occurs as a contiguous substring of `s`. -/
def containsStr (s pat : String) : Bool :=
  decide (pat.data <:+: s.data)

/-- If `pat` is a prefix of `cs`, return the remainder after it. -/
def dropPrefixQ : List Char → List Char → Option (List Char)
  | [], cs => some cs
  | _ :: _, [] => none
  | p :: ps, c :: cs => if p = c then dropPrefixQ ps cs else none

/-- `strings.ReplaceAll` worker (non-empty pattern; fuel bounds the scan). -/
def replaceAllAux (pat rep : List Char) : Nat → List Char → List Char
  | _, [] => []
  | 0, cs => cs
  | f + 1, c :: cs =>
    match dropPrefixQ pat (c :: cs) with
    | some rest => rep ++ replaceAllAux pat rep f rest
    | none => c :: replaceAllAux pat rep f cs

/-- `strings.ReplaceAll s pat rep`. -/
def replaceAll (s pat rep : String) : String :=
  ⟨replaceAllAux pat.data rep.data s.data.length s.data⟩

/-- `strings.Replace s pat rep 1`: replace only the first occurrence. -/
def replaceFirstAux (pat rep : List Char) : Nat → List Char → List Char
  | _, [] => []
  | 0, cs => cs
  | f + 1, c :: cs =>
    match dropPrefixQ pat (c :: cs) with
    | some rest => rep ++ rest
    | none => c :: replaceFirstAux pat rep f cs

/-- `strings.Replace s pat rep 1`. -/
def replaceFirst (s pat rep : String) : String :=
  ⟨replaceFirstAux pat.data rep.data s.data.length s.data⟩

/-- `strings.TrimSpace`. -/
def trimSpace (s : String) : String :=
  ⟨((s.data.dropWhile isSpaceChar).reverse.dropWhile isSpaceChar).reverse⟩

/-- `strings.Fields` worker: split on maximal whitespace runs. -/
def fieldsAux : Nat → List Char → List (List Char)
  | 0, _ => []
  | f + 1, cs =>
    let cs1 := cs.dropWhile isSpaceChar
    match cs1 with
    | [] => []
    | _ :: _ =>
      (cs1.takeWhile (fun c => ¬ isSpaceChar c)) ::
        fieldsAux f (cs1.dropWhile (fun c => ¬ isSpaceChar c))

/-- `strings.Fields`. -/
def fields (s : String) : List String :=
  (fieldsAux s.data.length s.data).map (fun cs => ⟨cs⟩)

/-- `strings.Split s "\n"` on character lists. -/
def splitNLChars : List Char → List (List Char)
  | [] => [[]]
  | c :: cs =>
    if c = '\n' then [] :: splitNLChars cs
    else
      match splitNLChars cs with
      | [] => [[c]]
      | h :: t => (c :: h) :: t

/-- `strings.Split s "\n"`. -/
def splitNL (s : String) : List String :=
  (splitNLChars s.data).map (fun cs => ⟨cs⟩)

/-- `strings.Join lines "\n"`. -/
def joinNL (lines : List String) : String :=
  String.intercalate "\n" lines

/-! ## Chord parser (`internal/converter/chords.go`) -/

/-- The twelve-pitch-class root vocabulary of `extractRootNote` (the
`validRoots` map in the source, listed in source order). -/
def validRootList : List String :=
  ["A", "A#", "Ab", "B", "Bb", "C", "C#", "D", "D#", "Db",
   "E", "Eb", "F", "F#", "G", "G#", "Gb"]

/-- Membership in the root vocabulary. -/
def validRoot (s : String) : Bool :=
  decide (s ∈ validRootList)

/-- `extractRootNote`: first character plus an immediately following
`#`/`b`, validated against the vocabulary; invalid roots map to `""`. -/
def extractRootNote (chord : String) : String :=
  match chord.data with
  | [] => ""
  | c0 :: rest =>
    let root : List Char :=
      match rest with
      | c1 :: _ => if c1 = '#' ∨ c1 = 'b' then [c0, c1] else [c0]
      | [] => [c0]
    if validRoot ⟨root⟩ then ⟨root⟩ else ""

/-- Increment the tally of `r` in an association list (first-insertion
order models the Go map contents). -/
def bumpRoot : List (String × Nat) → String → List (String × Nat)
  | [], r => [(r, 1)]
  | (k, n) :: rest, r =>
    if k = r then (k, n + 1) :: rest else (k, n) :: bumpRoot rest r

/-- One loop iteration of the `rootCounts` tally of `DetectKey`: drop the
chord when its root is invalid, otherwise bump the root's count. -/
def tallyRoot (acc : List (String × Nat)) (c : String) :
    List (String × Nat) :=
  let r := extractRootNote c
  if r = "" then acc else bumpRoot acc r

/-- The `rootCounts` tally of `DetectKey`: occurrences of each valid root. -/
def rootCountsList (chords : List String) : List (String × Nat) :=
  chords.foldl tallyRoot []

/-- One step of the max-count scan of `DetectKey` (strict comparison, so the
first maximum encountered is kept). -/
def maxStep (best p : String × Nat) : String × Nat :=
  if p.2 > best.2 then p else best

/-- The max-count scan of `DetectKey` over the tally.  Go iterates the map in
unspecified order; we model iteration in first-insertion order (the verified
claims do not depend on the tie-break). -/
def mostCommonRoot (counts : List (String × Nat)) : String :=
  (counts.foldl maxStep ("", 0)).1

/-- `analyzeChordQuality`: among occurrences of the winning root, classify
minor vs major by the presence of an "m" that is not part of "maj". -/
def analyzeChordQuality (chords : List String) (rootNote : String) : String :=
  if rootNote = "" then "major"
  else
    let mc := chords.foldl
      (fun (mc : Nat × Nat) chord =>
        if extractRootNote chord ≠ rootNote then mc
        else
          let low := lowerStr chord
          if containsStr low "m" ∧ ¬ containsStr low "maj" then (mc.1, mc.2 + 1)
          else (mc.1 + 1, mc.2))
      (0, 0)
    if mc.2 > mc.1 then "minor" else "major"

/-- `DetectKey`: tally roots, pick the most common, suffix "m" when the
quality analysis reports minor. -/
def DetectKey (chords : List String) : String :=
  if chords.isEmpty then ""
  else
    let mostCommon := mostCommonRoot (rootCountsList chords)
    let quality := analyzeChordQuality chords mostCommon
    if quality = "minor" ∧ mostCommon ≠ "" then mostCommon ++ "m" else mostCommon

/-! ## `ExtractChords` (`[ch]...[/ch]` scanner)

The Go source matches the regular expression
`\[ch\]([A-G][#b]?(?:maj|min|m|sus|aug|dim|add|[0-9])*)\[/ch\]` with
leftmost, non-overlapping semantics.  Because no quality atom begins with
`[`, greedy first-alternative munching is equivalent to the backtracking
regex here, so the scanner below implements maximal munch directly. -/

/-- Quality atoms of the capture group, in source alternation order. -/
def chAtomList : List (List Char) :=
  ["maj".data, "min".data, "m".data, "sus".data, "aug".data, "dim".data,
   "add".data]

/-- Try the alternation: return the remainder after the first atom that
matches a prefix of `cs`. -/
def firstAtomRest (atoms : List (List Char)) (cs : List Char) :
    Option (List Char) :=
  match atoms with
  | [] => none
  | a :: rest =>
    match dropPrefixQ a cs with
    | some r => some r
    | none => firstAtomRest rest cs

/-- One step of the `(?:maj|min|m|sus|aug|dim|add|[0-9])` alternation. -/
def chQualStep (cs : List Char) : Option (List Char) :=
  match firstAtomRest chAtomList cs with
  | some r => some r
  | none =>
    match cs with
    | c :: rest => if c.isDigit then some rest else none
    | [] => none

/-- Greedy Kleene star over quality atoms (fuel bounds the scan). -/
def chQualMany : Nat → List Char → List Char
  | 0, cs => cs
  | f + 1, cs =>
    match chQualStep cs with
    | some r => chQualMany f r
    | none => cs

/-- Try to match `[ch]<chord>[/ch]` at the head of `cs`; on success return
the captured chord spelling and the remainder after `[/ch]`. -/
def tryChMatch (cs : List Char) : Option (String × List Char) :=
  match dropPrefixQ "[ch]".data cs with
  | none => none
  | some r1 =>
    match r1 with
    | [] => none
    | c0 :: r2 =>
      if 'A' ≤ c0 ∧ c0 ≤ 'G' then
        let acc_r3 : List Char × List Char :=
          match r2 with
          | c1 :: rest =>
            if c1 = '#' ∨ c1 = 'b' then ([c0, c1], rest) else ([c0], r2)
          | [] => ([c0], r2)
        let r3 := acc_r3.2
        let r4 := chQualMany r3.length r3
        let chordChars := acc_r3.1 ++ r3.take (r3.length - r4.length)
        match dropPrefixQ "[/ch]".data r4 with
        | some r5 => some (⟨chordChars⟩, r5)
        | none => none
      else none

/-- Leftmost, non-overlapping scan for `[ch]...[/ch]` matches. -/
def extractChordsAux : Nat → List Char → List String
  | 0, _ => []
  | _ + 1, [] => []
  | f + 1, c :: cs =>
    match tryChMatch (c :: cs) with
    | some (chord, rest) => chord :: extractChordsAux f rest
    | none => extractChordsAux f cs

/-- `ExtractChords`: all captured chord spellings, in document order. -/
def ExtractChords (content : String) : List String :=
  extractChordsAux content.data.length content.data

/-- `NormalizeChordName`: strip `[ch]`/`[/ch]` tags and trim whitespace. -/
def NormalizeChordName (chord : String) : String :=
  trimSpace (replaceAll (replaceAll chord "[ch]" "") "[/ch]" "")

/-! ## OnSong converter (`internal/converter/onsong.go`) -/

/-- Root letters `A`–`G`. -/
def isRootChar (c : Char) : Bool :=
  'A' ≤ c ∧ c ≤ 'G'

/-- The optional quality alternatives of `chordTokenRegex`
(`maj|min|m|M|sus[24]?|aug|dim|add|no`), expanded, with the empty option
last for the `?` quantifier. -/
def qualOptions : List (List Char) :=
  ["maj".data, "min".data, "m".data, "M".data, "sus2".data, "sus4".data,
   "sus".data, "aug".data, "dim".data, "add".data, "no".data, []]

/-- The `[0-9]*(?:/[A-G][#b]?)?$` tail of `chordTokenRegex`. -/
def chordTailOk (cs : List Char) : Bool :=
  match cs.dropWhile Char.isDigit with
  | [] => true
  | '/' :: c :: r3 =>
    isRootChar c &&
      (match r3 with
       | [] => true
       | [c2] => c2 = '#' || c2 = 'b'
       | _ => false)
  | _ => false

/-- `chordTokenRegex.MatchString`: does `s` fully match
`^[A-G][#b]?(?:maj|min|m|M|sus[24]?|aug|dim|add|no)?[0-9]*(?:/[A-G][#b]?)?$`?
Each optional quality is tried in turn (including the empty one), which
implements the regex backtracking exactly. -/
def chordTokenB (s : String) : Bool :=
  match s.data with
  | [] => false
  | c0 :: r1 =>
    isRootChar c0 &&
      (let r2 := match r1 with
        | c1 :: rest => if c1 = '#' ∨ c1 = 'b' then rest else r1
        | [] => r1
       qualOptions.any (fun q =>
        match dropPrefixQ q r2 with
        | some r3 => chordTailOk r3
        | none => false))

/-- `strings.HasSuffix s ":"`. -/
def endsWithColon (s : String) : Bool :=
  match s.data.getLast? with
  | some c => c = ':'
  | none => false

/-- The per-line body of `wrapPlainChordLines`: if every whitespace-separated
token of the trimmed line matches the chord grammar, replace the first
occurrence of each token in the original line by the bracketed token
(`strings.Replace(result, t, "["+t+"]", 1)` in the source). -/
def wrapChordLine (line : String) : String :=
  let trimmed := trimSpace line
  if trimmed = "" ∨ endsWithColon trimmed then line
  else
    let tokens := fields trimmed
    if tokens.isEmpty then line
    else if tokens.all chordTokenB then
      tokens.foldl (fun res t => replaceFirst res t ("[" ++ t ++ "]")) line
    else line

/-- `wrapPlainChordLines`: apply `wrapChordLine` to every line. -/
def wrapPlainChordLines (content : String) : String :=
  joinNL ((splitNL content).map wrapChordLine)

/-- Fixed section labels of the section-header pattern (lower-cased), apart
from the numbered `Verse`/`Chorus` forms which are handled separately. -/
def sectionNames : List String :=
  ["intro", "pre-chorus", "bridge", "instrumental", "interlude",
   "turnaround", "outro", "tag", "ending", "solo", "break", "refrain",
   "coda", "hook", "vamp", "outro chorus"]

/-- Case-insensitive match of the bracket content against the section-label
alternation (`Intro|Verse\s*\d*|Chorus\s*\d*|...`). -/
def labelMatch (cs : List Char) : Bool :=
  let low : List Char := cs.map Char.toLower
  decide ((⟨low⟩ : String) ∈ sectionNames) ||
  (match dropPrefixQ "verse".data low with
   | some rest => (rest.dropWhile isSpaceChar).all Char.isDigit
   | none => false) ||
  (match dropPrefixQ "chorus".data low with
   | some rest => (rest.dropWhile isSpaceChar).all Char.isDigit
   | none => false)

/-- Match a whole line against `^\[(<label>)\]\s*$`, returning the captured
label text (original case) on success.  The pattern is applied per line
(multiline mode), so `\s*` here is trailing intra-line whitespace. -/
def sectionLine (line : String) : Option String :=
  match line.data with
  | '[' :: rest =>
    let label := rest.takeWhile (fun c => c ≠ ']')
    match rest.dropWhile (fun c => c ≠ ']') with
    | ']' :: ws =>
      if ws.all isSpaceChar && labelMatch label then some ⟨label⟩ else none
    | _ => none
  | _ => none

/-- The section-header rewrite `[Label]` → `Label:` of `formatContent`. -/
def sectionRewrite (content : String) : String :=
  joinNL ((splitNL content).map (fun line =>
    match sectionLine line with
    | some label => label ++ ":"
    | none => line))

/-- Collapse runs of three or more newlines to exactly two
(the `\n{3,}` → `"\n\n"` rewrite). -/
def squashNLAux : Nat → List Char → List Char
  | 0, cs => cs
  | _ + 1, [] => []
  | f + 1, c :: cs =>
    if c = '\n' then
      let run := 1 + (cs.takeWhile (fun d => d = '\n')).length
      let rest := cs.dropWhile (fun d => d = '\n')
      (if run ≥ 3 then ['\n', '\n'] else List.replicate run '\n') ++
        squashNLAux f rest
    else c :: squashNLAux f cs

/-- Collapse runs of three or more newlines to exactly two. -/
def squashBlankLines (s : String) : String :=
  ⟨squashNLAux s.data.length s.data⟩

/-- `formatContent`: strip `[tab]` markers, turn `[ch]X[/ch]` into `[X]`,
rewrite section headers, wrap plain chord lines when no `[ch]` tags were
present, collapse blank lines and trim.  The bracket-preservation loop of
the source assigns every line to itself, so it is the identity map. -/
def formatContent (content : String) : String :=
  let c1 := replaceAll (replaceAll content "[tab]" "") "[/tab]" ""
  let hasChTags := containsStr c1 "[ch]"
  let c2 :=
    if hasChTags then replaceAll (replaceAll c1 "[ch]" "[") "[/ch]" "]"
    else c1
  let c3 := sectionRewrite c2
  let c4 := if ¬ hasChTags then wrapPlainChordLines c3 else c3
  let c5 := joinNL ((splitNL c4).map (fun line => line))
  trimSpace (squashBlankLines c5)

/-- `getUniqueChords`: deduplicated normalized chord list, in first-seen
order (the `seen` set of the source always holds exactly the elements of
`unique`, so one list suffices). -/
def getUniqueChords (chords : List String) : List String :=
  chords.foldl
    (fun unique chord =>
      let normalized := NormalizeChordName chord
      if ¬ unique.contains normalized ∧ normalized ≠ "" then
        unique ++ [normalized]
      else unique) []

/-- Contributor record of a tab. -/
structure Contributor where
  UserID : Int
  Username : String
deriving DecidableEq, Repr

/-- `scraper.TabResult`.  `Rating` (Go `float64`) is modelled as `Rat`; the
`Date` field (`time.Time`) is omitted — no verified operation reads it; the
source fields `Type` and `Contributor` are spelled `TypeName` and `Contrib`
here because `Type` is reserved in Lean and `Contributor` names the record
type above. -/
structure TabResult where
  TabID : Int
  SongName : String
  ArtistName : String
  TypeName : String
  Part : String
  Version : Int
  Votes : Int
  Rating : Rat
  Status : String
  TonalityName : String
  Verified : Int
  Capo : Int
  Tuning : String
  Difficulty : String
  Content : String
  URLWeb : String
  Contrib : Contributor
deriving DecidableEq, Repr

/-- `ConversionResult`. -/
structure ConversionResult where
  OnSongFormat : String
  DetectedKey : String
  ChordCount : Nat
  Chords : List String
deriving DecidableEq, Repr

/-- Go `fmt.Sprintf "%.1f"`: one-decimal rendering with round-half-to-even,
modelled on `Rat` by integer arithmetic on numerator and denominator
(exact for the decimal-valued ratings of interest). -/
def fmtF1 (q : Rat) : String :=
  let num : Int := 10 * q.num
  let den : Int := (q.den : Int)
  let fl : Int := num.fdiv den
  let r : Int := num - fl * den
  let n : Int :=
    if 2 * r > den then fl + 1
    else if 2 * r < den then fl
    else if fl % 2 = 0 then fl else fl + 1
  let sign := if n < 0 then "-" else ""
  let m := n.natAbs
  sign ++ toString (m / 10) ++ "." ++ toString (m % 10)

/-- The body of `Convert` for a non-nil tab: chord extraction, key
resolution, header assembly, reformatted body, and the comment footer.
`strings.Builder` accumulation is modelled by string concatenation. -/
def convertCore (tab : TabResult) : ConversionResult :=
  let chords := ExtractChords tab.Content
  let dk1 := tab.TonalityName
  let dk2 := if dk1 = "" ∨ dk1 = "undefined" then DetectKey chords else dk1
  let detectedKey := if dk2 = "" then "Unknown" else dk2
  let formattedContent := formatContent tab.Content
  let header :=
    tab.SongName ++ "\n" ++ tab.ArtistName ++ "\n" ++
    (if detectedKey ≠ "" ∧ detectedKey ≠ "Unknown" then
      "Key: " ++ detectedKey ++ "\n" else "") ++
    (if tab.Capo > 0 then "Capo: " ++ toString tab.Capo ++ "\n" else "") ++
    (if tab.Tuning ≠ "" ∧ tab.Tuning ≠ "E A D G B E" then
      "Tuning: " ++ tab.Tuning ++ "\n" else "") ++
    "\n"
  let footer :=
    "\n\n" ++
    "# Source: Ultimate Guitar (Tab ID: " ++ toString tab.TabID ++ ")\n" ++
    "# Contributor: " ++ tab.Contrib.Username ++ "\n" ++
    "# Rating: " ++ fmtF1 tab.Rating ++ "/5.0 (" ++ toString tab.Votes ++
      " votes)\n"
  { OnSongFormat := header ++ formattedContent ++ footer
    DetectedKey := detectedKey
    ChordCount := chords.length
    Chords := getUniqueChords chords }

/-- `Convert`: the only error path of the source is a nil tab pointer,
modelled by `none`. -/
def ConvertP : Option TabResult → Except String ConversionResult
  | none => .error "tab cannot be nil"
  | some tab => .ok (convertCore tab)

/-- `ValidateTab`: first missing field wins, in source order. -/
def ValidateTab (tab : TabResult) : Option String :=
  if tab.SongName = "" then some "song name is required"
  else if tab.ArtistName = "" then some "artist name is required"
  else if tab.Content = "" then some "tab content is empty"
  else none

/-- The tab-handler pipeline after a successful fetch
(`handlers/tab.go`): validate, then convert. -/
def handleTab (tab : TabResult) : Except String ConversionResult :=
  match ValidateTab tab with
  | some e => .error e
  | none => ConvertP (some tab)

/-- `extractPlainChords`: collect the tokens of every all-chord line. -/
def extractPlainChords (content : String) : List String :=
  (splitNL content).foldl
    (fun chords line =>
      let trimmed := trimSpace line
      if trimmed = "" ∨ endsWithColon trimmed then chords
      else
        let tokens := fields trimmed
        if tokens.isEmpty then chords
        else if tokens.all chordTokenB then chords ++ tokens
        else chords) []

/-- `FormatManualContent`: header lines, optional detected-key line, blank
line, then the reformatted content (when non-empty); no footer is written. -/
def FormatManualContent (title artist content : String) : String :=
  let out1 := title ++ "\n"
  let out2 := out1 ++ (artist ++ "\n")
  let chords0 := ExtractChords content
  let chords := if chords0.length = 0 then extractPlainChords content
                else chords0
  let out3 :=
    if chords.length > 0 then
      let detectedKey := DetectKey chords
      if detectedKey ≠ "" then out2 ++ ("Key: " ++ detectedKey ++ "\n")
      else out2
    else out2
  let out4 := out3 ++ "\n"
  if content ≠ "" then out4 ++ formatContent content else out4

/-- The key-header fragment of `FormatManualContent`, as a standalone
function (used to state its closed form). -/
def manualKeyHeader (content : String) : String :=
  let chords0 := ExtractChords content
  let chords := if chords0.length = 0 then extractPlainChords content
                else chords0
  if chords.length > 0 then
    let k := DetectKey chords
    if k ≠ "" then "Key: " ++ k ++ "\n" else ""
  else ""

/-- The format-handler pipeline (`handlers/format.go` / `FormatHandler`):
reject an empty title, substitute "Unknown Artist" for a blank artist, then
format.  `none` models the 400 response. -/
def handleFormat (title artist content : String) : Option String :=
  if title = "" then none
  else some (FormatManualContent title
    (if artist = "" then "Unknown Artist" else artist) content)

/-! ## Search-result reduction (`internal/scraper/search_scraper.go`) -/

/-- `scraper.SearchResult`; `Rating` (Go `float64`) is modelled as `Rat`,
and the source field `Type` is spelled `TypeName` (reserved word). -/
structure SearchResult where
  ID : String
  Title : String
  Artist : String
  TypeName : String
  Rating : Rat
  Votes : Int
  Difficulty : String
  URL : String
deriving DecidableEq, Repr

/-- The bucket key of `filterTopResults`: the artist string verbatim, with
the empty artist replaced by `"Unknown"`.  Note that the source applies no
case normalization here. -/
def artistKey (r : SearchResult) : String :=
  if r.Artist = "" then "Unknown" else r.Artist

/-- `strings.ToLower(r.Type) == "chords"`. -/
def isChordsType (r : SearchResult) : Bool :=
  lowerStr r.TypeName = "chords"

/-- The incumbent-update rule of `filterTopResults` (the `else if` chain of
the source, given that an incumbent exists). -/
def updateTop (cur r : SearchResult) : SearchResult :=
  if isChordsType r ∧ ¬ isChordsType cur then r
  else if isChordsType r ∧ isChordsType cur ∧ r.Rating > cur.Rating then r
  else if ¬ isChordsType r ∧ ¬ isChordsType cur ∧ r.Rating > cur.Rating then r
  else cur

/-- Insert `r` under key `k` into the per-artist table, updating the
incumbent when the key is present.  The Go `map` is modelled as an
association list in first-insertion order. -/
def insertTop : List (String × SearchResult) → String → SearchResult →
    List (String × SearchResult)
  | [], k, r => [(k, r)]
  | (k', cur) :: rest, k, r =>
    if k' = k then (k', updateTop cur r) :: rest
    else (k', cur) :: insertTop rest k r

/-- The table built by the loop of `filterTopResults`. -/
def topTable (results : List SearchResult) : List (String × SearchResult) :=
  results.foldl (fun acc r => insertTop acc (artistKey r) r) []

/-- `filterTopResults`: one retained result per artist bucket.  Go iterates
the map in unspecified order when building the output slice; we emit values
in first-insertion order (the verified claims are order-independent). -/
def filterTopResults (results : List SearchResult) : List SearchResult :=
  (topTable results).map Prod.snd

/-! ## Webhook delivery (`internal/webhook/client.go`)

`SendWithRetry` is modelled over two oracles that stand for the external
world: `op n` is the outcome of the `n`-th POST attempt (success, retryable
failure, or a permanent request-construction failure), and `clock n` says
whether the exponential-backoff policy still has wall-clock budget
(`MaxElapsedTime = 60s`) for a further retry after the `n`-th attempt.
`backoff.WithMaxRetries(b, 6)` additionally caps the number of retries at
`maxRetries = 6` independently of the clock, which is what the counting
theorems rely on. -/

/-- Outcome of one delivery attempt. -/
inductive AttemptOutcome where
  | success : AttemptOutcome
  | transientErr : AttemptOutcome
  | permanentErr : AttemptOutcome
deriving DecidableEq, Repr

/-- `maxRetries` of `webhook.NewClient`. -/
def webhookMaxRetries : Nat := 6

/-- Minimal projection of `webhook.DeliveryResult` (the delivery id,
duration and timestamp fields are wall-clock data with no shallow
counterpart). -/
structure DeliveryResult where
  Success : Bool
  Attempts : Nat
deriving DecidableEq, Repr

/-- The `backoff.Retry` loop: run the operation, stop on success or a
permanent error, otherwise retry while both the retry cap and the clock
allow.  `attemptsSoFar` counts completed attempts; the result is the final
attempt count paired with the success flag. -/
def retryLoop (op : Nat → AttemptOutcome) (clock : Nat → Bool) :
    Nat → Nat → Nat × Bool
  | retriesLeft, attemptsSoFar =>
    match op (attemptsSoFar + 1) with
    | .success => (attemptsSoFar + 1, true)
    | .permanentErr => (attemptsSoFar + 1, false)
    | .transientErr =>
      match retriesLeft with
      | 0 => (attemptsSoFar + 1, false)
      | r + 1 =>
        if clock (attemptsSoFar + 1) then retryLoop op clock r (attemptsSoFar + 1)
        else (attemptsSoFar + 1, false)

/-- `SendWithRetry`: the two early returns hand back no `DeliveryResult`
(`nil` in the source, `none` here) together with an error; otherwise the
retry loop runs and exactly one result is produced.  The second component
models whether a non-nil `error` was returned alongside. -/
def SendWithRetry (webhookURL : String) (marshalOk : Bool)
    (op : Nat → AttemptOutcome) (clock : Nat → Bool) :
    Option DeliveryResult × Bool :=
  if webhookURL = "" then (none, true)
  else if ¬ marshalOk then (none, true)
  else
    let out := retryLoop op clock webhookMaxRetries 0
    (some ⟨out.2, out.1⟩, ¬ out.2)

/-! ## API-key signing (`internal/scraper`, `generateAPIKey`)

Wall-clock time is modelled as seconds since the Unix epoch; `now.Format
"2006-01-02"` and `now.Hour()` are the civil-date and hour-of-day
projections below (proleptic Gregorian, as Go's `time` package computes
them for UTC).  The MD5 step is Go standard-library code, not repository
code, so it is abstracted as a parameter `hash` standing for
hex-encoded MD5. -/

/-- Hour of day (UTC) of an epoch timestamp, `now.Hour()`. -/
def utcHour (t : Nat) : Nat :=
  t / 3600 % 24

/-- Civil date from days since 1970-01-01 (standard days-from-civil
inverse, proleptic Gregorian): year, month, day. -/
def civilFromDays (days : Nat) : Nat × Nat × Nat :=
  let z := days + 719468
  let era := z / 146097
  let doe := z % 146097
  let yoe := (doe - doe / 1460 + doe / 36524 - doe / 146096) / 365
  let y := yoe + era * 400
  let doy := doe - (365 * yoe + yoe / 4 - yoe / 100)
  let mp := (5 * doy + 2) / 153
  let d := doy - (153 * mp + 2) / 5 + 1
  let m := if mp < 10 then mp + 3 else mp - 9
  (if m ≤ 2 then y + 1 else y, m, d)

/-- Zero-pad a numeral to two digits. -/
def pad2 (n : Nat) : String :=
  if n < 10 then "0" ++ toString n else toString n

/-- Zero-pad a numeral to four digits. -/
def pad4 (n : Nat) : String :=
  if n < 10 then "000" ++ toString n
  else if n < 100 then "00" ++ toString n
  else if n < 1000 then "0" ++ toString n
  else toString n

/-- `now.UTC().Format "2006-01-02"` of an epoch timestamp. -/
def utcDateString (t : Nat) : String :=
  let ymd := civilFromDays (t / 86400)
  pad4 ymd.1 ++ "-" ++ pad2 ymd.2.1 ++ "-" ++ pad2 ymd.2.2

/-- `generateAPIKey`: hash of deviceID, the `"YYYY-MM-DD:H"` date-hour
string (hour printed by `%d`, no leading zero), and the fixed literal
suffix `"createLog()"`. -/
def generateAPIKey (hash : String → String) (deviceID : String)
    (t : Nat) : String :=
  let formattedDate := utcDateString t ++ ":" ++ toString (utcHour t)
  hash (deviceID ++ formattedDate ++ "createLog()")

/-! ## Lemmas: key detection -/

/-- The raw root spelling of a chord: first character plus an immediately
following accidental, before vocabulary validation. -/
def rootSpelling (chord : String) : String :=
  match chord.data with
  | [] => ""
  | c0 :: rest =>
    match rest with
    | c1 :: _ => if c1 = '#' ∨ c1 = 'b' then ⟨[c0, c1]⟩ else ⟨[c0]⟩
    | [] => ⟨[c0]⟩

/-- Invariant of the tally entries: a validated, non-empty root with a
positive count. -/
def goodEntry (p : String × Nat) : Prop :=
  validRoot p.1 = true ∧ p.1 ≠ "" ∧ 1 ≤ p.2

theorem bumpRoot_ne_nil (acc : List (String × Nat)) (r : String) :
    bumpRoot acc r ≠ [] := by
  match acc with
  | [] => simp [bumpRoot]
  | (k, n) :: rest =>
    simp only [bumpRoot]
    split <;> simp

theorem extractRootNote_eq_ite (c : String) :
    extractRootNote c =
      (if validRoot (rootSpelling c) then rootSpelling c else "") := by
  obtain ⟨cs⟩ := c
  cases cs with
  | nil => rfl
  | cons c0 rest =>
    cases rest with
    | nil => rfl
    | cons c1 r2 =>
      simp only [extractRootNote, rootSpelling]
      split <;> rfl

theorem rootSpelling_ne_empty (c : String) (h : c.data ≠ []) :
    rootSpelling c ≠ "" := by
  obtain ⟨cs⟩ := c
  cases cs with
  | nil => exact absurd rfl h
  | cons c0 rest =>
    cases rest with
    | nil =>
      intro he
      exact List.cons_ne_nil c0 [] (congrArg String.data he)
    | cons c1 r2 =>
      simp only [rootSpelling]
      split
      · intro he
        exact List.cons_ne_nil c0 [c1] (congrArg String.data he)
      · intro he
        exact List.cons_ne_nil c0 [] (congrArg String.data he)

theorem extractRootNote_ne_iff (c : String) :
    extractRootNote c ≠ "" ↔ validRoot (rootSpelling c) = true := by
  rw [extractRootNote_eq_ite]
  constructor
  · intro h
    by_contra hv
    exact h (if_neg (by simpa using hv))
  · intro hv
    rw [if_pos (by simpa using hv)]
    apply rootSpelling_ne_empty
    intro hd
    have : rootSpelling c = "" := by
      unfold rootSpelling
      rw [hd]
    rw [this] at hv
    simp [validRoot, validRootList] at hv

theorem extractRootNote_valid (c : String) (h : extractRootNote c ≠ "") :
    validRoot (extractRootNote c) = true := by
  rw [extractRootNote_eq_ite] at h ⊢
  by_cases hv : validRoot (rootSpelling c) = true
  · rw [if_pos (by simpa using hv)]
    exact hv
  · exact absurd (if_neg (by simpa using hv)) h

theorem tallyRoot_ne_nil (acc : List (String × Nat)) (c : String)
    (h : acc ≠ []) : tallyRoot acc c ≠ [] := by
  simp only [tallyRoot]
  split
  · exact h
  · exact bumpRoot_ne_nil acc _

theorem foldl_tally_nil_iff (chords : List String)
    (acc : List (String × Nat)) :
    chords.foldl tallyRoot acc = [] ↔
      acc = [] ∧ ∀ c ∈ chords, extractRootNote c = "" := by
  induction chords generalizing acc with
  | nil => simp
  | cons c cs ih =>
    simp only [List.foldl_cons, ih, List.mem_cons]
    constructor
    · rintro ⟨h1, h2⟩
      by_cases hr : extractRootNote c = ""
      · have he : tallyRoot acc c = acc := by simp [tallyRoot, hr]
        rw [he] at h1
        refine ⟨h1, fun x hx => ?_⟩
        rcases hx with hx | hx
        · rw [hx]; exact hr
        · exact h2 x hx
      · exfalso
        have he : tallyRoot acc c = bumpRoot acc (extractRootNote c) := by
          simp [tallyRoot, hr]
        rw [he] at h1
        exact bumpRoot_ne_nil acc _ h1
    · rintro ⟨h1, h2⟩
      have hr : extractRootNote c = "" := h2 c (Or.inl rfl)
      exact ⟨by simp [tallyRoot, hr, h1], fun x hx => h2 x (Or.inr hx)⟩

theorem bumpRoot_prop (acc : List (String × Nat)) (r : String)
    (hacc : ∀ p ∈ acc, goodEntry p)
    (hr : validRoot r = true ∧ r ≠ "") :
    ∀ p ∈ bumpRoot acc r, goodEntry p := by
  induction acc with
  | nil =>
    intro p hp
    simp [bumpRoot] at hp
    rw [hp]
    exact ⟨hr.1, hr.2, Nat.le_refl 1⟩
  | cons q rest ih =>
    obtain ⟨k, n⟩ := q
    intro p hp
    simp only [bumpRoot] at hp
    split at hp
    · rcases List.mem_cons.mp hp with h | h
      · rw [h]
        have hq := hacc (k, n) (List.mem_cons_self _ _)
        exact ⟨hq.1, hq.2.1, Nat.le_succ_of_le hq.2.2⟩
      · exact hacc p (List.mem_cons_of_mem _ h)
    · rcases List.mem_cons.mp hp with h | h
      · rw [h]
        exact hacc _ (List.mem_cons_self _ _)
      · exact ih (fun x hx => hacc x (List.mem_cons_of_mem _ hx)) p h

theorem foldl_tally_prop (chords : List String)
    (acc : List (String × Nat)) (hacc : ∀ p ∈ acc, goodEntry p) :
    ∀ p ∈ chords.foldl tallyRoot acc, goodEntry p := by
  induction chords generalizing acc with
  | nil => simpa using hacc
  | cons c cs ih =>
    simp only [List.foldl_cons]
    apply ih
    intro p hp
    by_cases hr : extractRootNote c = ""
    · have he : tallyRoot acc c = acc := by simp [tallyRoot, hr]
      rw [he] at hp
      exact hacc p hp
    · have hv := extractRootNote_valid c hr
      have he : tallyRoot acc c = bumpRoot acc (extractRootNote c) := by
        simp [tallyRoot, hr]
      rw [he] at hp
      exact bumpRoot_prop acc _ hacc ⟨hv, hr⟩ p hp

theorem foldl_max_init_le (counts : List (String × Nat))
    (b : String × Nat) : b.2 ≤ (counts.foldl maxStep b).2 := by
  induction counts generalizing b with
  | nil => exact Nat.le_refl _
  | cons p rest ih =>
    simp only [List.foldl_cons]
    refine Nat.le_trans ?_ (ih (maxStep b p))
    simp only [maxStep]
    split
    · exact Nat.le_of_lt ‹_›
    · exact Nat.le_refl _

theorem foldl_max_mem_le (counts : List (String × Nat))
    (b p : String × Nat) (hp : p ∈ counts) :
    p.2 ≤ (counts.foldl maxStep b).2 := by
  induction counts generalizing b with
  | nil => cases hp
  | cons q rest ih =>
    simp only [List.foldl_cons]
    rcases List.mem_cons.mp hp with h | h
    · refine Nat.le_trans ?_ (foldl_max_init_le rest (maxStep b q))
      rw [h]
      simp only [maxStep]
      split
      · exact Nat.le_refl _
      · exact Nat.le_of_not_lt ‹_›
    · exact ih (maxStep b q) h

theorem foldl_max_mem_or_init (counts : List (String × Nat))
    (b : String × Nat) :
    counts.foldl maxStep b = b ∨ counts.foldl maxStep b ∈ counts := by
  induction counts generalizing b with
  | nil => left; rfl
  | cons q rest ih =>
    simp only [List.foldl_cons]
    rcases ih (maxStep b q) with h | h
    · rw [h]
      simp only [maxStep]
      split
      · right; exact List.mem_cons_self _ _
      · left; rfl
    · right; exact List.mem_cons_of_mem _ h

theorem mostCommonRoot_good (counts : List (String × Nat))
    (hne : counts ≠ []) (hgood : ∀ p ∈ counts, goodEntry p) :
    mostCommonRoot counts ≠ "" ∧ validRoot (mostCommonRoot counts) = true := by
  obtain ⟨p0, rest, rfl⟩ := List.exists_cons_of_ne_nil hne
  have h1 : 1 ≤ ((p0 :: rest).foldl maxStep ("", 0)).2 :=
    Nat.le_trans (hgood p0 (List.mem_cons_self _ _)).2.2
      (foldl_max_mem_le _ _ _ (List.mem_cons_self _ _))
  rcases foldl_max_mem_or_init (p0 :: rest) ("", 0) with h | h
  · rw [h] at h1
    exact absurd h1 (by simp)
  · have hg := hgood _ h
    exact ⟨by simpa [mostCommonRoot] using hg.2.1,
      by simpa [mostCommonRoot] using hg.1⟩

theorem string_append_m_ne (s : String) : s ++ "m" ≠ "" := by
  obtain ⟨l⟩ := s
  intro h
  have hd : l ++ ['m'] = [] := congrArg String.data h
  simp at hd

theorem chords_isEmpty_false (chords : List String) (h : chords ≠ []) :
    chords.isEmpty = false := by
  cases chords with
  | nil => exact absurd rfl h
  | cons c cs => rfl

theorem DetectKey_ne_empty_iff (chords : List String) :
    DetectKey chords ≠ "" ↔
      ∃ c ∈ chords, validRoot (rootSpelling c) = true := by
  by_cases hnil : chords = []
  · rw [hnil]
    simp [DetectKey]
  · have hie := chords_isEmpty_false chords hnil
    rw [DetectKey]
    simp only [hie, Bool.false_eq_true, if_false]
    constructor
    · intro hne
      by_contra hall
      push_neg at hall
      have hroots : ∀ c ∈ chords, extractRootNote c = "" := by
        intro c hc
        by_contra hr
        exact absurd ((extractRootNote_ne_iff c).mp hr) (by simpa using hall c hc)
      have hc : rootCountsList chords = [] :=
        (foldl_tally_nil_iff chords []).mpr ⟨rfl, hroots⟩
      have hmc : mostCommonRoot (rootCountsList chords) = "" := by
        rw [hc]; rfl
      rw [hmc] at hne
      simp at hne
    · rintro ⟨c, hc, hv⟩
      have hr : extractRootNote c ≠ "" := (extractRootNote_ne_iff c).mpr hv
      have hne : rootCountsList chords ≠ [] := by
        intro h
        exact hr (((foldl_tally_nil_iff chords []).mp h).2 c hc)
      have hgood := foldl_tally_prop chords [] (by simp)
      have hmc := mostCommonRoot_good (rootCountsList chords) hne hgood
      split
      · exact string_append_m_ne _
      · exact hmc.1

/-- C2: for every non-empty chord list, `DetectKey` returns a non-empty
string iff some chord's root spelling (first letter plus an immediately
following `#`/`b`) lies in the twelve-pitch-class vocabulary; moreover
`DetectKey ["G","C","G","D"] = "G"`, `DetectKey ["Am","Am","C","F"] = "Am"`,
and `DetectKey [] = ""`. -/
theorem detectKey_spec :
    (∀ chords : List String, chords ≠ [] →
       (DetectKey chords ≠ "" ↔
         ∃ c ∈ chords, validRoot (rootSpelling c) = true)) ∧
    DetectKey ["G", "C", "G", "D"] = "G" ∧
    DetectKey ["Am", "Am", "C", "F"] = "Am" ∧
    DetectKey ([] : List String) = "" :=
  ⟨fun chords _ => DetectKey_ne_empty_iff chords, by decide, by decide, rfl⟩

/-- Witness for C2 at a concrete input: the chord list `["G"]` is non-empty,
`"G"` is a valid root, and `DetectKey ["G"]` is accordingly non-empty. -/
theorem detectKey_spec_witness : DetectKey ["G"] ≠ "" :=
  (detectKey_spec.1 ["G"] (by decide)).mpr ⟨"G", by decide, by decide⟩

/-- C10: `DetectKey` only ever returns the empty string, a vocabulary root,
or a vocabulary root suffixed with a single `"m"`. -/
theorem detectKey_shape (chords : List String) :
    DetectKey chords = "" ∨ validRoot (DetectKey chords) = true ∨
      ∃ r, validRoot r = true ∧ DetectKey chords = r ++ "m" := by
  by_cases hnil : chords = []
  · left
    rw [hnil]
    rfl
  · have hie := chords_isEmpty_false chords hnil
    by_cases hmce : mostCommonRoot (rootCountsList chords) = ""
    · left
      rw [DetectKey]
      simp [hie, hmce]
    · have hne : rootCountsList chords ≠ [] := by
        intro h
        apply hmce
        rw [h]
        rfl
      have hgood := foldl_tally_prop chords [] (by simp)
      have hv := (mostCommonRoot_good (rootCountsList chords) hne hgood).2
      rw [DetectKey]
      simp only [hie, Bool.false_eq_true, if_false]
      split
      · right; right
        exact ⟨mostCommonRoot (rootCountsList chords), hv, rfl⟩
      · right; left
        exact hv

/-! ## Lemmas: search-result reduction -/

/-- Invariant of the per-artist table relative to the processed prefix of
the input: keys are distinct, every processed result's key is covered, and
each entry holds a member of its bucket that is chords-typed whenever the
bucket contains a chords-typed candidate and that maximizes the rating
within its own type class. -/
def goodTable (processed : List SearchResult)
    (acc : List (String × SearchResult)) : Prop :=
  (acc.map Prod.fst).Nodup ∧
  (∀ m ∈ processed, artistKey m ∈ acc.map Prod.fst) ∧
  ∀ p ∈ acc, artistKey p.2 = p.1 ∧ p.2 ∈ processed ∧
    ((processed.filter (fun m => artistKey m = p.1)).any isChordsType = true →
      isChordsType p.2 = true) ∧
    (∀ m ∈ processed, artistKey m = p.1 →
      isChordsType m = isChordsType p.2 → m.Rating ≤ p.2.Rating)

theorem updateTop_spec (cur r : SearchResult) :
    isChordsType (updateTop cur r) = (isChordsType cur || isChordsType r) ∧
    (updateTop cur r = cur ∨ updateTop cur r = r) ∧
    (isChordsType cur = isChordsType (updateTop cur r) →
      cur.Rating ≤ (updateTop cur r).Rating) ∧
    (isChordsType r = isChordsType (updateTop cur r) →
      r.Rating ≤ (updateTop cur r).Rating) := by
  by_cases hc : isChordsType cur = true <;>
    by_cases hr : isChordsType r = true <;>
      by_cases hrat : r.Rating > cur.Rating <;>
        simp [updateTop, hc, hr, hrat, le_of_lt, le_of_not_lt]

theorem insertTop_keys (acc : List (String × SearchResult))
    (k : String) (r : SearchResult) :
    (insertTop acc k r).map Prod.fst =
      if k ∈ acc.map Prod.fst then acc.map Prod.fst
      else acc.map Prod.fst ++ [k] := by
  induction acc with
  | nil => simp [insertTop]
  | cons q rest ih =>
    obtain ⟨k', cur⟩ := q
    simp only [insertTop]
    by_cases hk : k' = k
    · subst hk
      simp
    · rw [if_neg hk]
      simp only [List.map_cons, ih]
      by_cases hmem : k ∈ rest.map Prod.fst
      · simp [hmem, Ne.symm hk]
      · simp [hmem, Ne.symm hk]

theorem insertTop_mem (acc : List (String × SearchResult))
    (k : String) (r : SearchResult)
    (hnd : (acc.map Prod.fst).Nodup) (q : String × SearchResult)
    (hq : q ∈ insertTop acc k r) :
    (q ∈ acc ∧ q.1 ≠ k) ∨ (k ∉ acc.map Prod.fst ∧ q = (k, r)) ∨
      ∃ cur, (k, cur) ∈ acc ∧ q = (k, updateTop cur r) := by
  induction acc with
  | nil =>
    simp only [insertTop, List.mem_singleton] at hq
    exact Or.inr (Or.inl ⟨by simp, hq⟩)
  | cons p rest ih =>
    obtain ⟨k', cur⟩ := p
    rw [List.map_cons] at hnd
    have hnd2 := List.nodup_cons.mp hnd
    simp only [insertTop] at hq
    by_cases hk : k' = k
    · rw [if_pos hk] at hq
      subst hk
      rcases List.mem_cons.mp hq with h | h
      · exact Or.inr (Or.inr ⟨cur, List.mem_cons_self _ _, h⟩)
      · refine Or.inl ⟨List.mem_cons_of_mem _ h, fun hqk => ?_⟩
        exact hnd2.1 (List.mem_map.mpr ⟨q, h, hqk⟩)
    · rw [if_neg hk] at hq
      rcases List.mem_cons.mp hq with h | h
      · refine Or.inl ⟨?_, ?_⟩
        · rw [h]; exact List.mem_cons_self _ _
        · rw [h]; exact hk
      · rcases ih hnd2.2 h with ⟨h1, h2⟩ | ⟨h1, h2⟩ | ⟨c, hc, he⟩
        · exact Or.inl ⟨List.mem_cons_of_mem _ h1, h2⟩
        · refine Or.inr (Or.inl ⟨?_, h2⟩)
          simp only [List.map_cons, List.mem_cons]
          rintro (h3 | h3)
          · exact hk h3.symm
          · exact h1 h3
        · exact Or.inr (Or.inr ⟨c, List.mem_cons_of_mem _ hc, he⟩)

theorem goodTable_step (pr : List SearchResult)
    (acc : List (String × SearchResult)) (r : SearchResult)
    (h : goodTable pr acc) :
    goodTable (pr ++ [r]) (insertTop acc (artistKey r) r) := by
  obtain ⟨hnd, hcov, hprops⟩ := h
  refine ⟨?_, ?_, ?_⟩
  · rw [insertTop_keys]
    split
    · exact hnd
    · next hk =>
      simp only [List.nodup_append, List.nodup_cons]
      exact ⟨hnd, by simp, by simpa using fun hx => hk hx⟩
  · intro m hm
    rw [insertTop_keys]
    rcases List.mem_append.mp hm with h | h
    · have hin := hcov m h
      split
      · exact hin
      · exact List.mem_append.mpr (Or.inl hin)
    · have hmr : m = r := by simpa using h
      subst hmr
      split
      · next hk => exact hk
      · exact List.mem_append.mpr (Or.inr (by simp))
  · intro p hp
    rcases insertTop_mem acc (artistKey r) r hnd p hp with
      ⟨hold, hnek⟩ | ⟨hnotin, hpeq⟩ | ⟨cur, hcurin, hpeq⟩
    · obtain ⟨hkey, hmem, hch, hrat⟩ := hprops p hold
      have hfil : (pr ++ [r]).filter (fun m => artistKey m = p.1) =
          pr.filter (fun m => artistKey m = p.1) := by
        rw [List.filter_append]
        have : [r].filter (fun m => artistKey m = p.1) = [] := by
          simp only [List.filter_cons, List.filter_nil]
          rw [if_neg]
          simp only [decide_eq_true_eq]
          exact fun hx => hnek (hx ▸ rfl)
        rw [this, List.append_nil]
      refine ⟨hkey, List.mem_append.mpr (Or.inl hmem), ?_, ?_⟩
      · rw [hfil]; exact hch
      · intro m hm hkm hcm
        rcases List.mem_append.mp hm with h | h
        · exact hrat m h hkm hcm
        · exfalso
          have : m = r := by simpa using h
          subst this
          exact hnek (hkm ▸ rfl)
    · subst hpeq
      have hbuck : pr.filter (fun m => artistKey m = artistKey r) = [] := by
        rw [List.filter_eq_nil_iff]
        intro m hm
        simp only [decide_eq_true_eq]
        intro hx
        exact hnotin (hx ▸ hcov m hm)
      refine ⟨rfl, List.mem_append.mpr (Or.inr (by simp)), ?_, ?_⟩
      · intro hany
        have hone : (pr ++ [r]).filter
            (fun m => artistKey m = artistKey r) = [r] := by
          rw [List.filter_append, hbuck]
          simp
        rw [show ((artistKey r, r).1) = artistKey r from rfl, hone] at hany
        simpa using hany
      · intro m hm hkm hcm
        rcases List.mem_append.mp hm with h | h
        · exfalso
          have : artistKey m ≠ artistKey r := by
            intro hx
            exact hnotin (hx ▸ hcov m h)
          exact this hkm
        · have : m = r := by simpa using h
          subst this
          exact le_refl _
    · subst hpeq
      obtain ⟨hkey, hmem, hch, hrat⟩ := hprops (artistKey r, cur) hcurin
      simp only at hkey hch hrat
      obtain ⟨huch, huor, hucur, hur⟩ := updateTop_spec cur r
      have hvkey : artistKey (updateTop cur r) = artistKey r := by
        rcases huor with h | h <;> rw [h]
        exact hkey
      have hvmem : updateTop cur r ∈ pr ++ [r] := by
        rcases huor with h | h <;> rw [h]
        · exact List.mem_append.mpr (Or.inl hmem)
        · exact List.mem_append.mpr (Or.inr (by simp))
      have hfil : (pr ++ [r]).filter (fun m => artistKey m = artistKey r) =
          pr.filter (fun m => artistKey m = artistKey r) ++ [r] := by
        rw [List.filter_append]
        congr 1
        simp [List.filter_cons]
      refine ⟨hvkey, hvmem, ?_, ?_⟩
      · intro hany
        rw [hfil, List.any_append] at hany
        simp only [List.any_cons, List.any_nil, Bool.or_false] at hany
        rcases Bool.or_eq_true_iff.mp hany with h | h
        · have hcur := hch h
          rw [huch, hcur]
          rfl
        · rw [huch, h]
          simp
      · intro m hm hkm hcm
        rcases List.mem_append.mp hm with h | h
        · by_cases hcc : isChordsType cur = isChordsType (updateTop cur r)
          · have h1 : m.Rating ≤ cur.Rating := hrat m h hkm (hcm.trans hcc.symm)
            exact le_trans h1 (hucur hcc)
          · exfalso
            have hcurF : isChordsType cur = false := by
              by_contra hx
              have hcurT : isChordsType cur = true :=
                eq_true_of_ne_false (by simpa using hx)
              apply hcc
              rw [huch, hcurT]
              simp
            have hvT : isChordsType (updateTop cur r) = true := by
              cases hv : isChordsType (updateTop cur r) with
              | false => exact absurd (hcurF.trans hv.symm) hcc
              | true => rfl
            have hmT : isChordsType m = true := hcm.trans hvT
            have hany : (pr.filter
                (fun m => artistKey m = artistKey r)).any isChordsType = true := by
              rw [List.any_eq_true]
              exact ⟨m, List.mem_filter.mpr ⟨h, by simpa using hkm⟩, hmT⟩
            rw [hch hany] at hcurF
            cases hcurF
        · have : m = r := by simpa using h
          subst this
          exact hur hcm

theorem goodTable_foldl (rs : List SearchResult) :
    ∀ (pr : List SearchResult) (acc : List (String × SearchResult)),
      goodTable pr acc →
      goodTable (pr ++ rs)
        (rs.foldl (fun acc r => insertTop acc (artistKey r) r) acc) := by
  induction rs with
  | nil =>
    intro pr acc h
    simpa using h
  | cons r rest ih =>
    intro pr acc h
    have h1 := goodTable_step pr acc r h
    have h2 := ih (pr ++ [r]) (insertTop acc (artistKey r) r) h1
    simpa [List.append_assoc] using h2

theorem topTable_good (results : List SearchResult) :
    goodTable results (topTable results) := by
  have h := goodTable_foldl results [] [] (by refine ⟨by simp, by simp, by simp⟩)
  simpa [topTable] using h

/-- C1 (amended: the source keys buckets by the exact artist string — no
case normalization — with the empty artist sent to the "Unknown" bucket):
`filterTopResults` returns at most one result per exact artist key; every
returned result comes from the input, is chords-typed whenever its bucket
contains a chords-typed candidate (so a chords candidate displaces any
non-chords incumbent regardless of rating), and has the maximum rating
among the bucket candidates of its own type class (so among two chords or
two non-chords candidates the higher-rated one is retained). -/
theorem filterTopResults_spec (results : List SearchResult) :
    ((filterTopResults results).map artistKey).Nodup ∧
    ∀ v ∈ filterTopResults results,
      v ∈ results ∧
      ((results.filter (fun m => artistKey m = artistKey v)).any
          isChordsType = true → isChordsType v = true) ∧
      (∀ m ∈ results, artistKey m = artistKey v →
        isChordsType m = isChordsType v → m.Rating ≤ v.Rating) := by
  obtain ⟨hnd, _, hprops⟩ := topTable_good results
  constructor
  · have hmap : (filterTopResults results).map artistKey =
        (topTable results).map Prod.fst := by
      rw [filterTopResults, List.map_map]
      exact List.map_congr_left (fun p hp => (hprops p hp).1)
    rw [hmap]
    exact hnd
  · intro v hv
    obtain ⟨p, hp, hpv⟩ := List.mem_map.mp hv
    obtain ⟨hkey, hmem, hch, hrat⟩ := hprops p hp
    subst hpv
    rw [← hkey] at hch hrat
    exact ⟨hmem, hch, hrat⟩

/-- Witness for C1 at a concrete bucket: among two same-artist chords
results with ratings 3 and 4, the reduction retains the higher-rated one,
and the lower-rated one is rating-dominated by it. -/
theorem filterTopResults_spec_witness :
    (SearchResult.mk "1" "t" "X" "Chords" 3 0 "" "").Rating ≤
      (SearchResult.mk "2" "t" "X" "Chords" 4 0 "" "").Rating :=
  ((filterTopResults_spec
      [SearchResult.mk "1" "t" "X" "Chords" 3 0 "" "",
       SearchResult.mk "2" "t" "X" "Chords" 4 0 "" ""]).2
    (SearchResult.mk "2" "t" "X" "Chords" 4 0 "" "") (by decide)).2.2
    (SearchResult.mk "1" "t" "X" "Chords" 3 0 "" "") (by decide) (by decide)
    (by decide)

/-- Counterexample to C1 as stated: two results whose artists differ only
in letter case land in distinct buckets, so the output contains two results
sharing the same case-normalized artist. -/
theorem filterTopResults_case_counterexample :
    (filterTopResults
        [SearchResult.mk "1" "t" "X" "Chords" 3 0 "" "",
         SearchResult.mk "2" "t" "x" "Chords" 4 0 "" ""]).map
        SearchResult.Artist = ["X", "x"] ∧
    lowerStr "X" = lowerStr "x" := by
  constructor
  · decide
  · decide

/-! ## Lemmas: webhook delivery -/

theorem retryLoop_all_fail (op : Nat → AttemptOutcome) (clock : Nat → Bool)
    (hop : ∀ n, op n = .transientErr) :
    ∀ retriesLeft attemptsSoFar,
      (retryLoop op clock retriesLeft attemptsSoFar).2 = false ∧
      attemptsSoFar + 1 ≤ (retryLoop op clock retriesLeft attemptsSoFar).1 ∧
      (retryLoop op clock retriesLeft attemptsSoFar).1 ≤
        attemptsSoFar + retriesLeft + 1 := by
  intro retriesLeft
  induction retriesLeft with
  | zero =>
    intro a
    rw [retryLoop, hop]
    refine ⟨rfl, Nat.le_refl _, ?_⟩
    show a + 1 ≤ a + 0 + 1
    omega
  | succ rl ih =>
    intro a
    rw [retryLoop, hop]
    show ((if clock (a + 1) = true then retryLoop op clock rl (a + 1)
        else (a + 1, false)).2 = false) ∧
      a + 1 ≤ (if clock (a + 1) = true then retryLoop op clock rl (a + 1)
        else (a + 1, false)).1 ∧
      (if clock (a + 1) = true then retryLoop op clock rl (a + 1)
        else (a + 1, false)).1 ≤ a + (rl + 1) + 1
    by_cases hc : clock (a + 1) = true
    · rw [if_pos hc]
      obtain ⟨h1, h2, h3⟩ := ih (a + 1)
      exact ⟨h1, Nat.le_trans (Nat.le_succ _) h2, by omega⟩
    · rw [if_neg hc]
      exact ⟨rfl, Nat.le_refl _, by omega⟩

/-- C3: when every attempt fails with a retryable error (for instance an
endpoint that always answers HTTP 500), `SendWithRetry` returns a
`DeliveryResult` with `success = false` together with a non-nil error, and
its attempt count lies between 1 and 7 (the initial attempt plus at most
`maxRetries = 6` retries) for every behaviour of the wall-clock budget,
which is modelled by the `clock` oracle standing for the 60-second
`MaxElapsedTime` bound. -/
theorem sendWithRetry_exhaust (url : String) (op : Nat → AttemptOutcome)
    (clock : Nat → Bool) (hurl : url ≠ "")
    (hop : ∀ n, op n = .transientErr) :
    ∃ res : DeliveryResult,
      SendWithRetry url true op clock = (some res, true) ∧
      res.Success = false ∧ 1 ≤ res.Attempts ∧ res.Attempts ≤ 7 := by
  obtain ⟨h1, h2, h3⟩ := retryLoop_all_fail op clock hop webhookMaxRetries 0
  refine ⟨⟨(retryLoop op clock webhookMaxRetries 0).2,
    (retryLoop op clock webhookMaxRetries 0).1⟩, ?_, h1, h2, ?_⟩
  · rw [SendWithRetry, if_neg hurl]
    simp [h1]
  · simpa [webhookMaxRetries] using h3

/-- Witness for C3 at a concrete input: an endpoint that always fails and a
clock that never exhausts the budget. -/
theorem sendWithRetry_exhaust_witness :
    ∃ res : DeliveryResult,
      SendWithRetry "http://host/hook" true (fun _ => .transientErr)
          (fun _ => true) = (some res, true) ∧
      res.Success = false ∧ 1 ≤ res.Attempts ∧ res.Attempts ≤ 7 :=
  sendWithRetry_exhaust "http://host/hook" (fun _ => .transientErr)
    (fun _ => true) (by decide) (fun _ => rfl)

/-- Counterexample to C4 as stated: with an empty destination URL the
source returns `nil` for the `*DeliveryResult` (here `none`) together with
an error, so no `DeliveryResult` is produced on that path. -/
theorem sendWithRetry_empty_url_counterexample :
    (SendWithRetry "" true (fun _ => AttemptOutcome.transientErr)
      (fun _ => true)).1 = none :=
  rfl

/-- C4 (amended): an invocation of `SendWithRetry` produces exactly one
`DeliveryResult` whenever the destination URL is non-empty and payload
serialization succeeds — including when all retry attempts are exhausted —
whereas an empty URL or a serialization failure yields an error with no
`DeliveryResult` (`nil` in the source). -/
theorem sendWithRetry_result_count (url : String) (marshalOk : Bool)
    (op : Nat → AttemptOutcome) (clock : Nat → Bool) :
    (url ≠ "" → marshalOk = true →
      ∃ res, (SendWithRetry url marshalOk op clock).1 = some res) ∧
    (url = "" ∨ marshalOk = false →
      (SendWithRetry url marshalOk op clock).1 = none) := by
  constructor
  · intro hurl hok
    subst hok
    rw [SendWithRetry, if_neg hurl]
    exact ⟨_, rfl⟩
  · rintro (hurl | hok)
    · rw [SendWithRetry, if_pos hurl]
    · subst hok
      rw [SendWithRetry]
      split
      · rfl
      · rfl

/-- Witness for C4 at a concrete input: a non-empty URL with a successful
marshal yields a result, an empty URL yields none. -/
theorem sendWithRetry_result_count_witness :
    (∃ res, (SendWithRetry "http://host/hook" true
        (fun _ => AttemptOutcome.success) (fun _ => true)).1 = some res) ∧
    (SendWithRetry "" true (fun _ => AttemptOutcome.success)
        (fun _ => true)).1 = none :=
  ⟨(sendWithRetry_result_count "http://host/hook" true
      (fun _ => AttemptOutcome.success) (fun _ => true)).1 (by decide) rfl,
   (sendWithRetry_result_count "" true (fun _ => AttemptOutcome.success)
      (fun _ => true)).2 (Or.inl rfl)⟩

/-! ## Lemmas: conversion and validation -/

theorem string_data_append (a b : String) : (a ++ b).data = a.data ++ b.data := by
  obtain ⟨la⟩ := a
  obtain ⟨lb⟩ := b
  rfl

theorem stringAppendAssoc (a b c : String) : a ++ b ++ c = a ++ (b ++ c) := by
  obtain ⟨la⟩ := a
  obtain ⟨lb⟩ := b
  obtain ⟨lc⟩ := c
  show String.mk (la ++ lb ++ lc) = String.mk (la ++ (lb ++ lc))
  rw [List.append_assoc]

theorem stringAppendEmpty (a : String) : a ++ "" = a := by
  obtain ⟨la⟩ := a
  show String.mk (la ++ []) = String.mk la
  rw [List.append_nil]

theorem containsStr_of_middle (a b c pat : String)
    (h : containsStr b pat = true) : containsStr (a ++ b ++ c) pat = true := by
  have hinf : pat.data <:+: b.data := of_decide_eq_true h
  apply decide_eq_true
  rw [string_data_append, string_data_append]
  exact List.IsInfix.trans hinf (List.infix_append _ _ _)

/-- A tab whose title is empty but whose artist and content are not. -/
def emptyTitleTab : TabResult :=
  ⟨1, "", "A", "", "", 1, 0, 0, "", "", 0, 0, "", "", "c", "", ⟨0, "u"⟩⟩

/-- Counterexample to C5 as stated: `Convert` itself performs no field
validation (its only error path is a nil tab), so on a tab with an empty
title it still returns a `ConversionResult` and no error. -/
theorem convert_no_validation_counterexample :
    (ConvertP (some emptyTitleTab)).isOk = true :=
  rfl

/-- C5 (amended): the field validation lives in `ValidateTab`, which the
tab handler runs before invoking `Convert`: `ValidateTab` accepts exactly
the tabs whose title, artist and content are all non-empty, rejects others
with an error naming the first missing field (checked in the order title,
artist, content), and the handler pipeline surfaces that error without
producing any `ConversionResult`; `Convert` itself rejects only a nil
tab. -/
theorem validateTab_spec (tab : TabResult) :
    (ValidateTab tab = none ↔
      tab.SongName ≠ "" ∧ tab.ArtistName ≠ "" ∧ tab.Content ≠ "") ∧
    (tab.SongName = "" → handleTab tab = .error "song name is required") ∧
    (tab.SongName ≠ "" → tab.ArtistName = "" →
      handleTab tab = .error "artist name is required") ∧
    (tab.SongName ≠ "" → tab.ArtistName ≠ "" → tab.Content = "" →
      handleTab tab = .error "tab content is empty") ∧
    (ValidateTab tab = none → handleTab tab = .ok (convertCore tab)) := by
  by_cases h1 : tab.SongName = "" <;>
    by_cases h2 : tab.ArtistName = "" <;>
      by_cases h3 : tab.Content = "" <;>
        simp [ValidateTab, handleTab, ConvertP, h1, h2, h3]

/-- Witness for C5 at concrete inputs: the handler rejects the
empty-title tab with the title error, and `ValidateTab` accepts a fully
populated tab. -/
theorem validateTab_spec_witness :
    handleTab emptyTitleTab = .error "song name is required" ∧
    ValidateTab ⟨1, "T", "A", "", "", 1, 0, 0, "", "", 0, 0, "", "", "c",
      "", ⟨0, "u"⟩⟩ = none :=
  ⟨(validateTab_spec emptyTitleTab).2.1 rfl,
   (validateTab_spec _).1.mpr ⟨by decide, by decide, by decide⟩⟩

theorem convertCore_chordCount (tab : TabResult) :
    (convertCore tab).ChordCount = (ExtractChords tab.Content).length :=
  rfl

theorem convertCore_chords (tab : TabResult) :
    (convertCore tab).Chords = getUniqueChords (ExtractChords tab.Content) :=
  rfl

theorem convertCore_onsong (tab : TabResult) :
    ∃ a c, (convertCore tab).OnSongFormat =
      a ++ formatContent tab.Content ++ c :=
  ⟨_, _, rfl⟩

/-- C6: converting any tab whose content is `"[ch]G[/ch]\n[ch]C[/ch]"`
yields a chord count of 2, the deduplicated chord list `["G", "C"]`, and an
OnSong document containing both `[G]` and `[C]`. -/
theorem convert_roundtrip (tab : TabResult)
    (h : tab.Content = "[ch]G[/ch]\n[ch]C[/ch]") :
    (convertCore tab).ChordCount = 2 ∧
    (convertCore tab).Chords = ["G", "C"] ∧
    containsStr (convertCore tab).OnSongFormat "[G]" = true ∧
    containsStr (convertCore tab).OnSongFormat "[C]" = true := by
  obtain ⟨a, c, he⟩ := convertCore_onsong tab
  rw [h] at he
  refine ⟨?_, ?_, ?_, ?_⟩
  · rw [convertCore_chordCount, h]
    decide
  · rw [convertCore_chords, h]
    decide
  · rw [he]
    exact containsStr_of_middle _ _ _ _ (by decide)
  · rw [he]
    exact containsStr_of_middle _ _ _ _ (by decide)

/-- A concrete tab carrying the round-trip content. -/
def c6Tab : TabResult :=
  ⟨1, "T", "A", "", "", 1, 0, 0, "", "", 0, 0, "", "",
   "[ch]G[/ch]\n[ch]C[/ch]", "", ⟨0, "u"⟩⟩

/-- Witness for C6 at the concrete tab `c6Tab`. -/
theorem convert_roundtrip_witness :
    (convertCore c6Tab).ChordCount = 2 ∧
    (convertCore c6Tab).Chords = ["G", "C"] ∧
    containsStr (convertCore c6Tab).OnSongFormat "[G]" = true ∧
    containsStr (convertCore c6Tab).OnSongFormat "[C]" = true :=
  convert_roundtrip c6Tab rfl

/-- C7 (code bug): the wrapper rewrites the line by replacing the first
occurrence of each token, so on the all-chord line `"G G"` the second
replacement hits the `G` inside the just-inserted `[G]` and produces
`"[[G]] G"` instead of `"[G] [G]"`; on tokens that do not collide, such as
`"G        C"`, it wraps each token in place as the claim describes. -/
theorem wrapPlainChordLines_repeated_token_bug :
    wrapPlainChordLines "G G" = "[[G]] G" ∧
    wrapPlainChordLines "G        C" = "[G]        [C]" := by
  constructor
  · decide
  · decide

/-- C8: the API signature is the hash of deviceID, the `"YYYY-MM-DD:H"`
date-hour string (hour 0–23 printed without a leading zero), and the fixed
literal suffix `"createLog()"`; two invocations in the same UTC date and
hour therefore produce the same signature. -/
theorem generateAPIKey_spec (hash : String → String) (deviceID : String)
    (t1 t2 : Nat) (hdate : utcDateString t1 = utcDateString t2)
    (hhour : utcHour t1 = utcHour t2) :
    generateAPIKey hash deviceID t1 =
      hash (deviceID ++ (utcDateString t1 ++ ":" ++ toString (utcHour t1)) ++
        "createLog()") ∧
    utcHour t1 < 24 ∧
    generateAPIKey hash deviceID t1 = generateAPIKey hash deviceID t2 := by
  refine ⟨rfl, ?_, ?_⟩
  · exact Nat.mod_lt _ (by norm_num)
  · unfold generateAPIKey
    rw [hdate, hhour]

/-- Witness for C8 at a concrete hash, device id, and two concrete
timestamps five seconds apart inside the same UTC hour. -/
theorem generateAPIKey_spec_witness :
    generateAPIKey (fun s => s) "deadbeef" 7200 =
      generateAPIKey (fun s => s) "deadbeef" 7205 :=
  (generateAPIKey_spec (fun s => s) "deadbeef" 7200 7205 (by decide)
    (by decide)).2.2

/-- Counterexample to C9 as stated: `FormatManualContent` itself writes the
artist argument verbatim, so with a blank artist the artist line is empty
and no "Unknown Artist" substitution happens inside it. -/
theorem formatManual_blank_artist_counterexample :
    FormatManualContent "T" "" "x" = "T\n\n\nx" ∧
    containsStr (FormatManualContent "T" "" "x") "Unknown Artist" = false := by
  constructor
  · decide
  · decide

/-- C9 (amended): the blank-artist substitution is performed by the format
handler, which passes "Unknown Artist" to `FormatManualContent` when the
artist field is blank; `FormatManualContent` itself emits exactly the
title line, the artist argument verbatim, the optional detected-key line,
a blank line, and the body reformatted by the same `formatContent`
pipeline used for scraped tabs — and nothing after it, so no footer block
is produced. -/
theorem formatManual_spec (title artist content : String) :
    (title ≠ "" → handleFormat title "" content =
      some (FormatManualContent title "Unknown Artist" content)) ∧
    FormatManualContent title artist content =
      title ++ "\n" ++ artist ++ "\n" ++ manualKeyHeader content ++ "\n" ++
        (if content = "" then "" else formatContent content) := by
  constructor
  · intro ht
    rw [handleFormat, if_neg ht]
    rfl
  · simp only [FormatManualContent, manualKeyHeader]
    by_cases hc : content = "" <;>
      split_ifs <;>
        simp_all [stringAppendAssoc, stringAppendEmpty]

/-- Witness for C9 at concrete inputs. -/
theorem formatManual_spec_witness :
    handleFormat "T" "" "x" = some (FormatManualContent "T" "Unknown Artist" "x") :=
  (formatManual_spec "T" "" "x").1 (by decide)

end UGScraper
